import Mathlib

/-!
Verification of the `metamorphic` test-harness library.

The Go sources are shallowly embedded: each struct becomes a Lean structure,
each method a pure function on that structure (stateful methods return the
updated structure), machine integers are `Int` with an explicit wrap at a
bit width `w`, the PRNG is an explicit oracle (a list of draws, or an
arbitrary permutation-producing shuffle function), and code that can panic
returns `Option`.
-/

/-! ## Package seq (src/seq/sequence.go) -/

/-- Two's-complement wrap of an integer at signed bit width `w`:
the result of Go's fixed-width arithmetic. -/
def wrapS (w : Nat) (x : Int) : Int :=
  (x + 2 ^ (w - 1)) % 2 ^ w - 2 ^ (w - 1)

/-- `IntsAscending` from src/seq/sequence.go: a sequence of ascending
integers in the range [Min,Max).  The unexported cursor `v` has Go zero
value `0` in a freshly constructed struct. -/
structure IntsAscending where
  Min : Int
  Max : Int
  v : Int
deriving Repr, DecidableEq

/-- `IntsAscending.Next`, at signed bit width `w`: increment the cursor
(with fixed-width wrap-around), restart to `Min` when the cursor reached
`Max` or fell to `Min` or below (the overflow guard). -/
def IntsAscending.Next (w : Nat) (s : IntsAscending) : Int × Bool × IntsAscending :=
  let v := wrapS w (s.v + 1)
  if s.Max ≤ v ∨ v ≤ s.Min then (s.Min, true, { s with v := s.Min })
  else (v, false, { s with v := v })

/-- `IntsDescending` from src/seq/sequence.go. -/
structure IntsDescending where
  Min : Int
  Max : Int
  v : Int
deriving Repr, DecidableEq

/-- `IntsDescending.Next`, at signed bit width `w`: decrement the cursor
(with wrap-around), restart to `Max - 1` when the cursor fell below `Min`
or reached `Max - 1` or above (the underflow guard). -/
def IntsDescending.Next (w : Nat) (s : IntsDescending) : Int × Bool × IntsDescending :=
  let v := wrapS w (s.v - 1)
  if v < s.Min ∨ wrapS w (s.Max - 1) ≤ v then
    (wrapS w (s.Max - 1), true, { s with v := wrapS w (s.Max - 1) })
  else (v, false, { s with v := v })

/-- `Slice` from src/seq/sequence.go: a sequence pulling from a slice,
delegating to an `IntsAscending` cursor over the element indices. -/
structure Slice (α : Type) where
  Elems : List α
  index : IntsAscending

/-- Go slice indexing `l[i]` for an `int` index: `none` models the
out-of-range panic. -/
def listAt {α : Type} (l : List α) (i : Int) : Option α :=
  if i < 0 then none else l.get? i.toNat

/-- `Slice.Next`: re-synchronize the index range if the element count
changed, then pull an index and project it onto the elements. -/
def Slice.Next {α : Type} (w : Nat) (s : Slice α) : Option α × Bool × Slice α :=
  let s := if s.index.Max ≠ (s.Elems.length : Int) then
      { s with index := { Min := 0, Max := (s.Elems.length : Int), v := 0 } }
    else s
  let r := IntsAscending.Next w s.index
  (listAt s.Elems r.1, r.2.1, { s with index := r.2.2 })

/-- `randomFilter.Next`'s loop body (src/seq/sequence.go).  The inner
sequence is a step function on an abstract state `σ`; the PRNG keep
decisions (`prng.Float64() < p`) are an explicit list of booleans, one per
iteration; `none` models a loop that exhausts the supplied draws (i.e.
does not terminate within them).  `r` is the accumulated `restarted`
flag. -/
def randomFilterLoop {σ α : Type} (inner : σ → α × Bool × σ) :
    List Bool → Bool → σ → Option (α × Bool × σ)
  | [], _, _ => none
  | keep :: ks, r, s =>
    let p := inner s
    let r := r || p.2.1
    if keep then some (p.1, r, p.2.2) else randomFilterLoop inner ks r p.2.2

/-- `randomFilter.Next`: the accumulated restart flag starts out false. -/
def randomFilterNext {σ α : Type} (inner : σ → α × Bool × σ)
    (ks : List Bool) (s : σ) : Option (α × Bool × σ) :=
  randomFilterLoop inner ks false s

/-- The inner-sequence state after `n` pulls. -/
def innerIter {σ α : Type} (inner : σ → α × Bool × σ) : Nat → σ → σ
  | 0, s => s
  | n + 1, s => innerIter inner n (inner s).2.2

/-! ## Weighted sampling (src/weighted.go) -/

/-- `ItemWeight` from src/weighted.go. -/
structure ItemWeight (α : Type) where
  Item : α
  Weight : Int
deriving Repr, DecidableEq

/-- `Weighted` is a slice of items and their weights. -/
abbrev Weighted (α : Type) : Type := List (ItemWeight α)

/-- `Weighted.total`: the sum of all weights. -/
def Weighted.total {α : Type} (w : Weighted α) : Int :=
  (List.map (fun x => x.Weight) w).sum

/-- The body of the closure returned by `Weighted.Random`, after the PRNG
has drawn `t`: scan the weight partitions by cumulative subtraction;
`none` models the trailing `panic("unreachable")`. -/
def Weighted.Random {α : Type} : Weighted α → Int → Option α
  | [], _ => none
  | x :: rest, t => if t - x.Weight < 0 then some x.Item else Weighted.Random rest (t - x.Weight)

/-- The deck built by `Weighted.RandomDeck`: index `i` appears
`w[i].Weight` times (a negative weight contributes no copies, like the Go
loop). `start` is the index of the first item of `xs` in the original
slice. -/
def makeDeckFrom {α : Type} : Nat → List (ItemWeight α) → List Nat
  | _, [] => []
  | start, x :: xs => List.replicate x.Weight.toNat start ++ makeDeckFrom (start + 1) xs

/-- The deck of `Weighted.RandomDeck` for the whole weighted set. -/
def Weighted.makeDeck {α : Type} (w : Weighted α) : List Nat :=
  makeDeckFrom 0 w

/-- The captured state of the closure returned by `Weighted.RandomDeck`. -/
structure DeckGen (α : Type) where
  items : Weighted α
  deck : List Nat
  index : Nat

/-- `Weighted.RandomDeck`: the freshly returned closure's state — the
cursor starts at the end of the (not yet shuffled) deck. -/
def Weighted.RandomDeck {α : Type} (w : Weighted α) : DeckGen α :=
  { items := w, deck := Weighted.makeDeck w, index := (Weighted.makeDeck w).length }

/-- One call of the closure returned by `Weighted.RandomDeck`.  The PRNG
shuffle is an oracle `σ` rearranging the deck in place; `none` models an
index-out-of-range panic. -/
def DeckGen.next {α : Type} (σ : List Nat → List Nat) (g : DeckGen α) :
    Option α × DeckGen α :=
  let g := if g.index = g.deck.length then { g with deck := σ g.deck, index := 0 } else g
  match g.deck.get? g.index with
  | none => (none, g)
  | some di =>
    match List.get? g.items di with
    | none => (none, g)
    | some iw => (some iw.Item, { g with index := g.index + 1 })

/-- `n` consecutive calls of the deck generator, collecting the outputs. -/
def DeckGen.run {α : Type} (σ : List Nat → List Nat) :
    Nat → DeckGen α → List (Option α) × DeckGen α
  | 0, g => ([], g)
  | n + 1, g =>
    let p := DeckGen.next σ g
    let q := DeckGen.run σ n p.2
    (p.1 :: q.1, q.2)

/-- Ghost machine: the `(deck, index)` dynamics of the deck generator,
emitting the drawn item index instead of the item. -/
structure DeckIdx where
  deck : List Nat
  index : Nat
deriving Repr, DecidableEq

/-- One step of the ghost index machine, mirroring `DeckGen.next`. -/
def DeckIdx.next (σ : List Nat → List Nat) (g : DeckIdx) : Option Nat × DeckIdx :=
  let g := if g.index = g.deck.length then { deck := σ g.deck, index := 0 } else g
  match g.deck.get? g.index with
  | none => (none, g)
  | some di => (some di, { g with index := g.index + 1 })

/-- `n` steps of the ghost index machine. -/
def DeckIdx.run (σ : List Nat → List Nat) : Nat → DeckIdx → List (Option Nat) × DeckIdx
  | 0, g => ([], g)
  | n + 1, g =>
    let p := DeckIdx.next σ g
    let q := DeckIdx.run σ n p.2
    (p.1 :: q.1, q.2)

/-- The ghost state corresponding to a deck generator state. -/
def DeckGen.idx {α : Type} (g : DeckGen α) : DeckIdx :=
  { deck := g.deck, index := g.index }

/-! ## Logger and runner (src/metamorphic.go)

Text is modelled as `List Char`.  A `Logger`'s two write paths are kept
distinct, as in the source: direct writes (`Logger.Write`) update
`lastByte`, while writes through the `newlineIndentingWriter` wrap the
history buffer itself and leave `lastByte` untouched. -/

/-- The `Logger` struct's observable state: the accumulated history, the
last byte seen by the direct `Write` path, the per-operation `logged`
flag, and the current operation number. -/
structure Logger where
  history : List Char
  lastByte : Char
  logged : Bool
  opNumber : Nat
deriving Repr, DecidableEq

/-- A zero-valued `Logger`, as built by `NewLogger` / `RunInTandem`. -/
def Logger.init : Logger :=
  { history := [], lastByte := Char.ofNat 0, logged := false, opNumber := 0 }

/-- `Logger.Write` (the direct path): append the bytes to the history and
remember the last byte written, if any. -/
def Logger.Write (l : Logger) (s : List Char) : Logger :=
  { l with history := l.history ++ s,
           lastByte := match s.getLast? with
             | some c => c
             | none => l.lastByte }

/-- `newlineIndentingWriter.Write`'s transformation: after every newline
written, insert the two-space indent. -/
def indentChars : List Char → List Char
  | [] => []
  | c :: cs => if c = '\n' then c :: ' ' :: ' ' :: indentChars cs else c :: indentChars cs

/-- A write through `l.wIndent`: indentation-transformed bytes go straight
to the history buffer, bypassing `Logger.Write` (so `lastByte` is NOT
updated). -/
def Logger.writeIndent (l : Logger) (s : List Char) : Logger :=
  { l with history := l.history ++ indentChars s }

/-- `Logger.Logf`: mark the operation as having logged and write the
formatted text through the indenting writer. -/
def Logger.Logf (l : Logger) (s : List Char) : Logger :=
  { (Logger.writeIndent l s) with logged := true }

/-- `Logger.Commentf`: if the last directly-written byte is not a newline,
write one through the indenting writer; then `Logf` the `// `-prefixed,
newline-terminated comment. -/
def Logger.Commentf (l : Logger) (s : List Char) : Logger :=
  let l := if l.lastByte ≠ '\n' then Logger.writeIndent l [ '\n' ] else l
  Logger.Logf l (String.data "// " ++ s ++ [ '\n' ])

/-- An operation (`Op[S]`): a descriptor string and a run function that,
given the state, produces the texts it passes to `Logger.Logf`, in order,
together with the updated state. -/
structure MOp (S : Type) where
  desc : List Char
  run : S → List (List Char) × S

/-- Go's `fmt`-style `%6d` rendering of the operation number: the decimal
numeral, left-padded with spaces to width 6. -/
def pad6 (n : Nat) : List Char :=
  List.replicate (6 - (Nat.repr n).length) ' ' ++ String.data (Nat.repr n)

/-- `Step`: reset the `logged` flag, directly write the
`op <N%6>: <descriptor> = ` prefix, run the operation (each of its log
texts goes through `Logf`), write `-` if nothing was logged, write the
final newline, and advance the operation number. -/
def Step {S : Type} (op : MOp S) (t : Logger × S) : Logger × S :=
  let l := { t.1 with logged := false }
  let l := Logger.Write l
    (String.data "op " ++ pad6 l.opNumber ++ String.data ": " ++ op.desc ++ String.data " = ")
  let rs := op.run t.2
  let l := List.foldl Logger.Logf l rs.1
  let l := if l.logged = false then Logger.Write l [ '-' ] else l
  let l := Logger.Write l [ '\n' ]
  ({ l with opNumber := l.opNumber + 1 }, rs.2)

/-- `Run`: step every operation from a fresh logger and the initial
state, then directly write the final `done` line. -/
def Run {S : Type} (initial : S) (ops : List (MOp S)) : Logger × S :=
  let r := List.foldl (fun t op => Step op t) (Logger.init, initial) ops
  (Logger.Write r.1 (String.data "done\n"), r.2)

/-- The per-operation protocol of `RunInTandem`: like `Step`, except the
operation number is assigned (not incremented) per operation. -/
def tandemStep {S : Type} (i : Nat) (op : MOp S) (t : Logger × S) : Logger × S :=
  let l := { t.1 with opNumber := i, logged := false }
  let l := Logger.Write l
    (String.data "op " ++ pad6 i ++ String.data ": " ++ op.desc ++ String.data " = ")
  let rs := op.run t.2
  let l := List.foldl Logger.Logf l rs.1
  let l := if l.logged = false then Logger.Write l [ '-' ] else l
  let l := Logger.Write l [ '\n' ]
  (l, rs.2)

/-- `RunInTandem`'s inner loop over the timelines `j ≥ 1` for one
operation: record the history offset, run the step, and compare the bytes
appended since the offset against timeline 0's segment `seg0`
(`compareOpResults`); a mismatch is recorded as a `(i, j)` divergence
report (`t.Errorf`) and execution continues. -/
def tandemInner {S : Type} (i : Nat) (op : MOp S) (seg0 : List Char) (j : Nat) :
    List (Logger × S) → List (Logger × S) × List (Nat × Nat)
  | [] => ([], [])
  | t :: ts =>
    let off := t.1.history.length
    let t' := tandemStep i op t
    let seg := List.drop off t'.1.history
    let r := tandemInner i op seg0 (j + 1) ts
    (t' :: r.1, (if seg = seg0 then [] else [ (i, j) ]) ++ r.2)

/-- One operation of `RunInTandem` across all timelines: timeline 0 runs
first and fixes the reference segment; every later timeline is compared
against it. -/
def tandemOp {S : Type} (i : Nat) (op : MOp S) :
    List (Logger × S) → List (Logger × S) × List (Nat × Nat)
  | [] => ([], [])
  | t0 :: ts =>
    let off0 := t0.1.history.length
    let t0' := tandemStep i op t0
    let seg0 := List.drop off0 t0'.1.history
    let r := tandemInner i op seg0 1 ts
    (t0' :: r.1, r.2)

/-- The operation loop of `RunInTandem`, starting at operation index `i`,
accumulating divergence reports in order. -/
def tandemRunFrom {S : Type} : Nat → List (Logger × S) → List (MOp S) →
    List (Logger × S) × List (Nat × Nat)
  | _, tls, [] => (tls, [])
  | i, tls, op :: ops =>
    let r := tandemOp i op tls
    let r2 := tandemRunFrom (i + 1) r.1 ops
    (r2.1, r.2 ++ r2.2)

/-- `RunInTandem`: one zero-valued logger per initial state, then the
operation loop.  The first component is the final timelines, the second
the list of reported divergences `(operation index, timeline)`. -/
def RunInTandem {S : Type} (initial : List S) (ops : List (MOp S)) :
    List (Logger × S) × List (Nat × Nat) :=
  tandemRunFrom 0 (initial.map (fun s => (Logger.init, s))) ops

/-! Ghost descriptions of the runner's output, used to state theorems. -/

/-- The exact bytes one tandem/step protocol round appends for operation
`op` with number `i` run against state `s`. -/
def opChunk {S : Type} (i : Nat) (op : MOp S) (s : S) : List Char :=
  String.data "op " ++ pad6 i ++ String.data ": " ++ op.desc ++ String.data " = " ++
    (List.map indentChars (op.run s).1).flatten ++
    (if (op.run s).1.isEmpty then [ '-' ] else []) ++ [ '\n' ]

/-- The state after running a list of operations in order. -/
def stateAfter {S : Type} (s : S) : List (MOp S) → S
  | [] => s
  | op :: ops => stateAfter ((op.run s).2) ops

/-- The full byte transcript of running `ops` (numbered from `i`) against
`s`, without the final `done` line. -/
def opLines {S : Type} : Nat → S → List (MOp S) → List Char
  | _, _, [] => []
  | i, s, op :: ops => opChunk i op s ++ opLines (i + 1) ((op.run s).2) ops

/-- The single log line the specification predicts for an operation whose
descriptor and logged outputs contain no newline: the verbatim
concatenated outputs, or `-` if nothing was logged. -/
def plainLine {S : Type} (i : Nat) (op : MOp S) (s : S) : List Char :=
  String.data "op " ++ pad6 i ++ String.data ": " ++ op.desc ++ String.data " = " ++
    (if (op.run s).1.isEmpty then [ '-' ] else (op.run s).1.flatten) ++ [ '\n' ]

/-- The predicted transcript (one line per operation), numbered from `i`,
without the final `done` line. -/
def plainLines {S : Type} : Nat → S → List (MOp S) → List Char
  | _, _, [] => []
  | i, s, op :: ops => plainLine i op s ++ plainLines (i + 1) ((op.run s).2) ops

/-- One timeline of `RunInTandem` run on its own (each timeline's logger
and state evolve independently of the others). -/
def soloRunFrom {S : Type} : Nat → (Logger × S) → List (MOp S) → Logger × S
  | _, t, [] => t
  | i, t, op :: ops => soloRunFrom (i + 1) (tandemStep i op t) ops

/-- The successive deck contents over `k` passes: the deck is reshuffled
at the start of each pass. -/
def deckPasses (σ : List Nat → List Nat) : Nat → List Nat → List (List Nat)
  | 0, _ => []
  | k + 1, d => σ d :: deckPasses σ k (σ d)

/-- The deck contents after `k` reshuffles. -/
def deckIter (σ : List Nat → List Nat) : Nat → List Nat → List Nat
  | 0, d => d
  | k + 1, d => deckIter σ k (σ d)

/-! ## Theorems -/

/-- Helper: whenever `Min < Max`, one `IntsAscending.Next` call returns a
value in `[Min, Max)`, from any cursor value and any bit width. -/
theorem ascending_next_range (w : Nat) (s : IntsAscending) (hs : s.Min < s.Max) :
    s.Min ≤ (IntsAscending.Next w s).1 ∧ (IntsAscending.Next w s).1 < s.Max := by
  unfold IntsAscending.Next
  by_cases h : s.Max ≤ wrapS w (s.v + 1) ∨ wrapS w (s.v + 1) ≤ s.Min
  · simp only [h, if_true]
    exact ⟨le_refl _, hs⟩
  · simp only [h, if_false]
    push_neg at h
    exact ⟨le_of_lt h.2, h.1⟩

/-- C2: code_bug evidence.  A freshly constructed ascending sequence over
[0, 2) (the Go zero value of the cursor is 0) returns `1` with
`restarted = false` on its very first call, contradicting both the claim
(first value `min` with `restarted = true`) and the `Sequence.Next`
documentation. -/
theorem intsAscending_fresh_min_zero_eval :
    (IntsAscending.Next 64 { Min := 0, Max := 2, v := 0 }).1 = 1 ∧
    (IntsAscending.Next 64 { Min := 0, Max := 2, v := 0 }).2.1 = false := by
  decide

/-- C3: code_bug evidence.  A freshly constructed descending sequence over
[-1, 1) (cursor zero value 0) returns `-1` with `restarted = false` on its
very first call, contradicting both the claim (first value `max - 1 = 0`
with `restarted = true`) and the `Sequence.Next` documentation. -/
theorem intsDescending_fresh_neg_min_eval :
    (IntsDescending.Next 64 { Min := -1, Max := 1, v := 0 }).1 = -1 ∧
    (IntsDescending.Next 64 { Min := -1, Max := 1, v := 0 }).2.1 = false := by
  decide

/-- C7: counterexample.  `Logger.Commentf` does not leave the "did this
operation log anything" state unchanged: on a fresh logger whose `logged`
flag is `false`, one comment flips it. -/
theorem commentf_sets_logged_counterexample :
    ¬ ((Logger.Commentf Logger.init (String.data "note")).logged = Logger.init.logged) := by
  decide

/-- C7 (amended): `Logger.Commentf` routes its text through `Logger.Logf`
and therefore always marks the current operation as having logged, so an
operation that only emits comments is treated as having produced output
and does not receive the `-` placeholder. -/
theorem commentf_sets_logged (l : Logger) (s : List Char) :
    (Logger.Commentf l s).logged = true := by
  unfold Logger.Commentf Logger.Logf
  rfl

/-- Helper: the total weight of a cons cell. -/
theorem weighted_total_cons {α : Type} (x : ItemWeight α) (l : Weighted α) :
    Weighted.total (x :: l) = x.Weight + Weighted.total l := by
  simp [Weighted.total]

/-- C9: with nonnegative weights and a draw `0 ≤ t < total`, the linear
cumulative-subtraction scan of `Weighted.Random` returns the item owning
`t`'s weight partition (so the trailing `panic("unreachable")`, modelled
by `none`, is never reached). -/
theorem random_scan_partition {α : Type} (w : Weighted α) (t : Int)
    (hw : ∀ x ∈ w, 0 ≤ x.Weight) (h0 : 0 ≤ t) (ht : t < Weighted.total w) :
    ∃ (i : Nat) (hi : i < w.length),
      Weighted.Random w t = some (w.get ⟨i, hi⟩).Item ∧
      Weighted.total (List.take i w) ≤ t ∧ t < Weighted.total (List.take (i + 1) w) := by
  induction w generalizing t with
  | nil =>
    exfalso
    simp [Weighted.total] at ht
    omega
  | cons x rest ih =>
    by_cases hx : t - x.Weight < 0
    · refine ⟨0, by simp, ?_, ?_, ?_⟩
      · simp [Weighted.Random, hx]
      · simp [Weighted.total]
        exact h0
      · simp [List.take, weighted_total_cons, Weighted.total]
        omega
    · have hw' : ∀ y ∈ rest, 0 ≤ y.Weight := fun y hy => hw y (List.mem_cons_of_mem x hy)
      have h0' : 0 ≤ t - x.Weight := by omega
      have ht' : t - x.Weight < Weighted.total rest := by
        rw [weighted_total_cons] at ht
        omega
      obtain ⟨i, hi, heq, hlo, hhi⟩ := ih (t - x.Weight) hw' h0' ht'
      refine ⟨i + 1, Nat.succ_lt_succ hi, ?_, ?_, ?_⟩
      · simpa [Weighted.Random, hx] using heq
      · simpa [List.take, weighted_total_cons] using by omega
      · simpa [List.take, weighted_total_cons] using by omega

/-- C10: for any `IntsAscending` with `Min < Max`, every `Next` call —
from any cursor value, at any bit width — returns a value in `[Min, Max)`;
consequently `Slice.Next` over a non-empty element slice (the slice's
cursor has `Min = 0`, as every state constructed by `Slice.Next` does)
always indexes within the slice's bounds. -/
theorem next_in_range_slice_in_bounds {α : Type} (w : Nat)
    (s : IntsAscending) (sl : Slice α)
    (hs : s.Min < s.Max) (hMin : sl.index.Min = 0) (hne : sl.Elems ≠ []) :
    (s.Min ≤ (IntsAscending.Next w s).1 ∧ (IntsAscending.Next w s).1 < s.Max) ∧
    ((Slice.Next w sl).1).isSome = true := by
  refine ⟨ascending_next_range w s hs, ?_⟩
  have hlen : 0 < sl.Elems.length := List.length_pos.mpr hne
  unfold Slice.Next
  by_cases hc : sl.index.Max ≠ (sl.Elems.length : Int)
  · rw [if_pos hc]
    dsimp only
    have hr : (0 : Int) ≤ (IntsAscending.Next w { Min := 0, Max := (sl.Elems.length : Int), v := 0 }).1 ∧
        (IntsAscending.Next w { Min := 0, Max := (sl.Elems.length : Int), v := 0 }).1
          < (sl.Elems.length : Int) :=
      ascending_next_range w { Min := 0, Max := (sl.Elems.length : Int), v := 0 }
        (by show (0 : Int) < (sl.Elems.length : Int); exact_mod_cast hlen)
    unfold listAt
    have h1 : ¬ ((IntsAscending.Next w { Min := 0, Max := (sl.Elems.length : Int), v := 0 }).1 < 0) := by
      omega
    rw [if_neg h1]
    have h2 : (IntsAscending.Next w { Min := 0, Max := (sl.Elems.length : Int), v := 0 }).1.toNat
        < sl.Elems.length := by
      omega
    rw [List.get?_eq_get h2]
    rfl
  · rw [if_neg hc]
    dsimp only
    have hmax : sl.index.Max = (sl.Elems.length : Int) := not_not.mp hc
    have hr := ascending_next_range w sl.index (by rw [hMin, hmax]; exact_mod_cast hlen)
    rw [hMin] at hr
    unfold listAt
    have h1 : ¬ ((IntsAscending.Next w sl.index).1 < 0) := by omega
    rw [if_neg h1]
    have h2 : (IntsAscending.Next w sl.index).1.toNat < sl.Elems.length := by
      rw [hmax] at hr
      omega
    rw [List.get?_eq_get h2]
    rfl

/-- Witness for C10 at a concrete input: cursor 7 outside [0, 3), and a
slice of two elements with a desynchronized index range. -/
theorem next_in_range_slice_in_bounds_witness :
    (((0 : Int) ≤ (IntsAscending.Next 64 { Min := 0, Max := 3, v := 7 }).1 ∧
      (IntsAscending.Next 64 { Min := 0, Max := 3, v := 7 }).1 < 3) ∧
    ((Slice.Next 64 { Elems := [ 10, 20 ], index := { Min := 0, Max := 5, v := 9 } }).1).isSome = true) :=
  next_in_range_slice_in_bounds 64
    { Min := 0, Max := 3, v := 7 }
    { Elems := [ 10, 20 ], index := { Min := 0, Max := 5, v := 9 } }
    (by decide) (by decide) (by decide)

/-- Witness for C9 at a concrete input: weights 2 and 3, draw `t = 3`
lands in the second item's partition. -/
theorem random_scan_partition_witness :
    ∃ (i : Nat) (hi : i < ([ ItemWeight.mk 10 2, ItemWeight.mk 20 3 ] : Weighted Nat).length),
      Weighted.Random [ ItemWeight.mk 10 2, ItemWeight.mk 20 3 ] 3 =
        some ((([ ItemWeight.mk 10 2, ItemWeight.mk 20 3 ] : Weighted Nat).get ⟨i, hi⟩).Item) ∧
      Weighted.total (List.take i [ ItemWeight.mk 10 2, ItemWeight.mk 20 3 ]) ≤ 3 ∧
      3 < Weighted.total (List.take (i + 1) [ ItemWeight.mk 10 2, ItemWeight.mk 20 3 ]) :=
  random_scan_partition [ ItemWeight.mk 10 2, ItemWeight.mk 20 3 ] 3
    (by decide) (by decide) (by decide)

/-- Helper: `any` over `range (n+1)` peels off index 0. -/
theorem range_succ_any (g : Nat → Bool) (n : Nat) :
    (List.range (n + 1)).any g = (g 0 || (List.range n).any fun m => g (m + 1)) := by
  rw [List.range_succ_eq_map]
  simp only [List.any_cons, List.any_map]
  rfl

/-- Helper: `randomFilterLoop` with accumulator `r`, when the first kept
draw is at position `n`, returns the `(n+1)`-st inner pull's value, the
state after it, and `r` OR-ed with every pull's restart flag. -/
theorem filterLoop_first_keep {σ α : Type} (inner : σ → α × Bool × σ) :
    ∀ (n : Nat) (ks : List Bool) (r : Bool) (s : σ),
      ks.get? n = some true → (∀ m, m < n → ks.get? m = some false) →
      randomFilterLoop inner ks r s =
        some ((inner (innerIter inner n s)).1,
          r || (List.range (n + 1)).any (fun m => (inner (innerIter inner m s)).2.1),
          (inner (innerIter inner n s)).2.2) := by
  intro n
  induction n with
  | zero =>
    intro ks r s hn hb
    cases ks with
    | nil => simp at hn
    | cons k ks' =>
      have hk : k = true := by simpa using hn
      subst hk
      simp [randomFilterLoop, innerIter, List.range_succ]
  | succ n ih =>
    intro ks r s hn hb
    cases ks with
    | nil => simp at hn
    | cons k ks' =>
      have hk : k = false := by simpa using hb 0 (Nat.succ_pos n)
      subst hk
      have hstep : randomFilterLoop inner (false :: ks') r s =
          randomFilterLoop inner ks' (r || (inner s).2.1) ((inner s).2.2) := by
        simp [randomFilterLoop]
      rw [hstep]
      rw [ih ks' (r || (inner s).2.1) ((inner s).2.2)
          (by simpa using hn) (fun m hm => by simpa using hb (m + 1) (Nat.succ_lt_succ hm))]
      have hshift : innerIter inner n ((inner s).2.2) = innerIter inner (n + 1) s := rfl
      rw [hshift]
      have hany : (List.range (n + 1 + 1)).any
            (fun m => (inner (innerIter inner m s)).2.1) =
          ((inner s).2.1 ||
            (List.range (n + 1)).any (fun m => (inner (innerIter inner m ((inner s).2.2))).2.1)) := by
        rw [range_succ_any]
        rfl
      rw [hany, Bool.or_assoc]

/-- C8: a `randomFilter.Next` call that terminates (its PRNG keep
decisions contain a first `true` at position `n`) returns the first inner
value the PRNG keeps, with `restarted = true` exactly when some inner
pull of the call — discarded or kept — itself restarted. -/
theorem randomFilter_first_keep {σ α : Type} (inner : σ → α × Bool × σ)
    (ks : List Bool) (s : σ) (n : Nat)
    (hn : ks.get? n = some true) (hb : ∀ m, m < n → ks.get? m = some false) :
    randomFilterNext inner ks s =
      some ((inner (innerIter inner n s)).1,
        (List.range (n + 1)).any (fun m => (inner (innerIter inner m s)).2.1),
        (inner (innerIter inner n s)).2.2) := by
  have h := filterLoop_first_keep inner n ks false s hn hb
  simpa using h

/-- Witness for C8: an inner sequence on `Nat` states that restarts only
on its first pull; the first pull is discarded, the second kept, and the
discarded pull's restart is still propagated. -/
theorem randomFilter_first_keep_witness :
    randomFilterNext (fun k : Nat => (k * 10, decide (k = 0), k + 1)) [ false, true ] 0 =
      some (10, true, 2) := by
  have h := randomFilter_first_keep (fun k : Nat => (k * 10, decide (k = 0), k + 1))
    [ false, true ] 0 1 (by decide)
    (by intro m hm
        have hm0 : m = 0 := by omega
        subst hm0
        decide)
  simpa using h

/-- Helper: running `a + b` deck steps is running `a`, then `b` from the
resulting state. -/
theorem deckIdx_run_append (σ : List Nat → List Nat) (a b : Nat) (g : DeckIdx) :
    DeckIdx.run σ (a + b) g =
      ((DeckIdx.run σ a g).1 ++ (DeckIdx.run σ b (DeckIdx.run σ a g).2).1,
        (DeckIdx.run σ b (DeckIdx.run σ a g).2).2) := by
  induction a generalizing g with
  | zero =>
    rw [Nat.zero_add]
    simp [DeckIdx.run]
  | succ a ih =>
    rw [Nat.succ_add]
    simp only [DeckIdx.run]
    rw [ih]
    simp [DeckIdx.run]

/-- Helper: `m` steps inside a pass (cursor `j`, no reshuffle possible)
emit the deck slice `[j, j+m)` and advance the cursor by `m`. -/
theorem deckIdx_run_seg (σ : List Nat → List Nat) :
    ∀ (m : Nat) (d : List Nat) (j : Nat), j + m ≤ d.length →
      DeckIdx.run σ m { deck := d, index := j } =
        ((List.take m (List.drop j d)).map some, { deck := d, index := j + m }) := by
  intro m
  induction m with
  | zero =>
    intro d j h
    simp [DeckIdx.run]
  | succ m ih =>
    intro d j h
    have hj : j < d.length := by omega
    have hne : ¬ (j = d.length) := by omega
    have hget : d.get? j = some (d.get ⟨j, hj⟩) := List.get?_eq_get hj
    simp only [DeckIdx.run, DeckIdx.next]
    rw [if_neg hne, hget]
    dsimp only
    rw [ih d (j + 1) (by omega)]
    rw [List.drop_eq_get_cons hj, List.take_succ_cons]
    refine congrArg₂ Prod.mk ?_ ?_
    · simp
    · have : j + 1 + m = j + (m + 1) := by omega
      rw [this]

/-- Helper: from a pass boundary (cursor at deck end), one full pass
reshuffles and emits the shuffled deck in order, ending at the next pass
boundary. -/
theorem deckIdx_pass (σ : List Nat → List Nat) (hσ : ∀ l, List.Perm (σ l) l) (d : List Nat) :
    DeckIdx.run σ d.length { deck := d, index := d.length } =
      ((σ d).map some, { deck := σ d, index := (σ d).length }) := by
  have hlen : (σ d).length = d.length := (hσ d).length_eq
  cases hd : d.length with
  | zero =>
    have hnil : d = [] := List.length_eq_zero.mp hd
    subst hnil
    have hσnil : σ [] = [] := (hσ []).eq_nil
    simp [DeckIdx.run, hσnil]
  | succ n =>
    have hσd : (σ d).length = n + 1 := by omega
    simp only [DeckIdx.run, DeckIdx.next]
    rw [if_pos (show n + 1 = d.length by omega)]
    dsimp only
    have h0 : (σ d).get? 0 = some ((σ d).get ⟨0, by omega⟩) := List.get?_eq_get (by omega)
    rw [h0]
    dsimp only
    rw [deckIdx_run_seg σ n (σ d) 1 (by omega)]
    refine congrArg₂ Prod.mk ?_ ?_
    · have htake : List.take n (List.drop 1 (σ d)) = List.drop 1 (σ d) :=
        List.take_of_length_le (by simp [hσd])
    
      rw [htake]
      rw [← List.map_cons]
      have : (σ d).get ⟨0, by omega⟩ :: List.drop 1 (σ d) = σ d := by
        have := List.drop_eq_get_cons (l := σ d) (n := 0) (by omega)
        simpa using this.symm
      rw [this]
    · have : 1 + n = (σ d).length := by omega
      rw [this]

/-- Helper: each pass of `deckPasses` is a permutation of the original
deck. -/
theorem deckPasses_perm (σ : List Nat → List Nat) (hσ : ∀ l, List.Perm (σ l) l) :
    ∀ (k : Nat) (d p : List Nat), p ∈ deckPasses σ k d → p.Perm d := by
  intro k
  induction k with
  | zero =>
    intro d p hp
    simp [deckPasses] at hp
  | succ k ih =>
    intro d p hp
    simp only [deckPasses, List.mem_cons] at hp
    rcases hp with h | h
    · subst h
      exact hσ d
    · exact (ih (σ d) p h).trans (hσ d)

/-- Helper: there are `k` passes. -/
theorem deckPasses_length (σ : List Nat → List Nat) :
    ∀ (k : Nat) (d : List Nat), (deckPasses σ k d).length = k := by
  intro k
  induction k with
  | zero => intro d; rfl
  | succ k ih => intro d; simp [deckPasses, ih]

/-- Helper: `k` full passes from a pass boundary emit the concatenation of
the `k` successive shuffled decks. -/
theorem deckIdx_k_passes (σ : List Nat → List Nat) (hσ : ∀ l, List.Perm (σ l) l) :
    ∀ (k : Nat) (d : List Nat),
      DeckIdx.run σ (k * d.length) { deck := d, index := d.length } =
        ((deckPasses σ k d).flatten.map some,
          { deck := deckIter σ k d, index := (deckIter σ k d).length }) := by
  intro k
  induction k with
  | zero =>
    intro d
    simp [DeckIdx.run, deckPasses, deckIter]
  | succ k ih =>
    intro d
    have hmul : (k + 1) * d.length = d.length + k * d.length := by ring
    rw [hmul, deckIdx_run_append, deckIdx_pass σ hσ d]
    have hlen : (σ d).length = d.length := (hσ d).length_eq
    dsimp only
    rw [show k * d.length = k * (σ d).length by rw [hlen]]
    rw [ih (σ d)]
    simp [deckPasses, deckIter, List.map_append]

/-- Helper: counting in a flatten of blocks that all have count `c`. -/
theorem count_flatten_const {α : Type} [DecidableEq α] (i : α) :
    ∀ (L : List (List α)) (c : Nat), (∀ p ∈ L, List.count i p = c) →
      List.count i L.flatten = L.length * c := by
  intro L
  induction L with
  | nil =>
    intro c _
    simp
  | cons q L ih =>
    intro c h
    simp only [List.flatten_cons, List.count_append, List.length_cons]
    rw [h q (List.mem_cons_self q L), ih c (fun p hp => h p (List.mem_cons_of_mem q hp))]
    ring

/-- Helper: how often an item index occurs in the deck built from
`start`. -/
theorem count_makeDeckFrom {α : Type} :
    ∀ (xs : List (ItemWeight α)) (start n : Nat),
      List.count n (makeDeckFrom start xs) =
        if start ≤ n then ((List.get? xs (n - start)).map (fun x => x.Weight.toNat)).getD 0
        else 0 := by
  intro xs
  induction xs with
  | nil =>
    intro start n
    simp [makeDeckFrom]
  | cons x xs ih =>
    intro start n
    simp only [makeDeckFrom, List.count_append, List.count_replicate, ih (start + 1) n]
    by_cases h1 : n = start
    · subst h1
      simp
    · by_cases h2 : n < start
      · rw [if_neg (by simpa using Ne.symm h1), if_neg (by omega), if_neg (by omega)]
      · have h3 : start + 1 ≤ n := by omega
        rw [if_neg (by simpa using Ne.symm h1), if_pos h3, if_pos (by omega)]
        have h4 : n - start = (n - (start + 1)) + 1 := by omega
        rw [h4]
        simp

/-- Helper: the occurrence count of index `i` in the deck equals item `i`'s
weight (clamped at zero). -/
theorem count_makeDeck {α : Type} (w : Weighted α) (i : Nat) (hi : i < w.length) :
    List.count i (Weighted.makeDeck w) = (w.get ⟨i, hi⟩).Weight.toNat := by
  unfold Weighted.makeDeck
  rw [count_makeDeckFrom]
  simp [List.getElem?_eq_getElem hi, List.get_eq_getElem]

/-- Helper: every entry of the deck built from `start` lies in
`[start, start + length)`. -/
theorem makeDeckFrom_mem {α : Type} :
    ∀ (xs : List (ItemWeight α)) (start d : Nat), d ∈ makeDeckFrom start xs →
      start ≤ d ∧ d < start + xs.length := by
  intro xs
  induction xs with
  | nil =>
    intro start d hd
    simp [makeDeckFrom] at hd
  | cons x xs ih =>
    intro start d hd
    simp only [makeDeckFrom, List.mem_append] at hd
    rcases hd with h | h
    · have hde := List.eq_of_mem_replicate h
      subst hde
      simp only [List.length_cons]
      omega
    · have := ih (start + 1) d h
      simp only [List.length_cons]
      omega

/-- Helper: the total weight is nonnegative when all weights are. -/
theorem total_nonneg {α : Type} :
    ∀ (w : Weighted α), (∀ x ∈ w, 0 ≤ x.Weight) → 0 ≤ Weighted.total w := by
  intro w
  induction w with
  | nil =>
    intro _
    simp [Weighted.total]
  | cons x xs ih =>
    intro hw
    rw [weighted_total_cons]
    have hx := hw x (List.mem_cons_self x xs)
    have hxs := ih (fun y hy => hw y (List.mem_cons_of_mem x hy))
    omega

/-- Helper: the deck length equals the total weight (as a natural number)
when all weights are nonnegative. -/
theorem makeDeck_length {α : Type} :
    ∀ (w : Weighted α), (∀ x ∈ w, 0 ≤ x.Weight) →
      (Weighted.makeDeck w).length = (Weighted.total w).toNat := by
  have hfrom : ∀ (xs : List (ItemWeight α)) (start : Nat),
      (makeDeckFrom start xs).length = (xs.map (fun x => x.Weight.toNat)).sum := by
    intro xs
    induction xs with
    | nil => intro start; simp [makeDeckFrom]
    | cons x xs ih => intro start; simp [makeDeckFrom, ih]
  intro w
  induction w with
  | nil =>
    intro _
    simp [Weighted.makeDeck, makeDeckFrom, Weighted.total]
  | cons x xs ih =>
    intro hw
    have hx := hw x (List.mem_cons_self x xs)
    have hxs : ∀ y ∈ xs, 0 ≤ y.Weight := fun y hy => hw y (List.mem_cons_of_mem x hy)
    unfold Weighted.makeDeck at ih ⊢
    rw [hfrom] at ih ⊢
    simp only [List.map_cons, List.sum_cons, weighted_total_cons]
    rw [Int.toNat_add hx (total_nonneg xs hxs), ih hxs]

/-- Helper: one `DeckGen.next` step emits the item of the index drawn by
the ghost machine, and tracks the ghost state exactly (the deck is valid:
every entry indexes into the items). -/
theorem deckGen_next_sim {α : Type} (σ : List Nat → List Nat) (hσ : ∀ l, List.Perm (σ l) l)
    (g : DeckGen α) (hv : ∀ d ∈ g.deck, d < g.items.length) :
    (DeckGen.next σ g).1 =
      ((DeckIdx.next σ (DeckGen.idx g)).1.bind fun di => (List.get? g.items di).map ItemWeight.Item) ∧
    DeckGen.idx (DeckGen.next σ g).2 = (DeckIdx.next σ (DeckGen.idx g)).2 ∧
    (DeckGen.next σ g).2.items = g.items := by
  obtain ⟨items, deck, index⟩ := g
  simp only [DeckGen.next, DeckGen.idx, DeckIdx.next] at hv ⊢
  by_cases hcond : index = deck.length
  · rw [if_pos hcond, if_pos hcond]
    dsimp only
    rcases hget : List.get? (σ deck) 0 with _ | di
    · simp [hget, DeckGen.idx]
    · have hmem : di ∈ deck := ((hσ deck).mem_iff).mp (List.get?_mem hget)
      have hdi : di < items.length := hv di hmem
      have hit : items[di]? = some (items.get ⟨di, hdi⟩) := by
        rw [List.getElem?_eq_getElem hdi]
        simp [List.get_eq_getElem]
      simp [hget, hit, DeckGen.idx]
  · rw [if_neg hcond, if_neg hcond]
    dsimp only
    rcases hget : List.get? deck index with _ | di
    · simp [hget, DeckGen.idx]
    · have hmem : di ∈ deck := List.get?_mem hget
      have hdi : di < items.length := hv di hmem
      have hit : items[di]? = some (items.get ⟨di, hdi⟩) := by
        rw [List.getElem?_eq_getElem hdi]
        simp [List.get_eq_getElem]
      simp [hget, hit, DeckGen.idx]

/-- Helper: a valid deck stays valid across one step. -/
theorem deckGen_next_valid {α : Type} (σ : List Nat → List Nat) (hσ : ∀ l, List.Perm (σ l) l)
    (g : DeckGen α) (hv : ∀ d ∈ g.deck, d < g.items.length) :
    ∀ d ∈ (DeckGen.next σ g).2.deck, d < (DeckGen.next σ g).2.items.length := by
  obtain ⟨items, deck, index⟩ := g
  simp only [DeckGen.next] at hv ⊢
  by_cases hcond : index = deck.length
  · rw [if_pos hcond]
    dsimp only
    rcases hget : List.get? (σ deck) 0 with _ | di
    · simp only [hget]
      intro d hd
      exact hv d (((hσ deck).mem_iff).mp hd)
    · rcases hit : List.get? items di with _ | iw <;>
        simp only [hget, hit] <;>
        intro d hd <;>
        exact hv d (((hσ deck).mem_iff).mp hd)
  · rw [if_neg hcond]
    dsimp only
    rcases hget : List.get? deck index with _ | di
    · simp only [hget]
      exact hv
    · rcases hit : List.get? items di with _ | iw <;>
        simp only [hget, hit] <;>
        exact hv

/-- Helper: `n` `DeckGen` calls emit exactly the ghost machine's index
draws, looked up in the (unchanged) items. -/
theorem deckGen_run_sim {α : Type} (σ : List Nat → List Nat) (hσ : ∀ l, List.Perm (σ l) l) :
    ∀ (n : Nat) (g : DeckGen α), (∀ d ∈ g.deck, d < g.items.length) →
      (DeckGen.run σ n g).1 =
        ((DeckIdx.run σ n (DeckGen.idx g)).1.map fun o =>
          o.bind fun di => (List.get? g.items di).map ItemWeight.Item) ∧
      DeckGen.idx (DeckGen.run σ n g).2 = (DeckIdx.run σ n (DeckGen.idx g)).2 ∧
      (DeckGen.run σ n g).2.items = g.items := by
  intro n
  induction n with
  | zero =>
    intro g hv
    simp [DeckGen.run, DeckIdx.run]
  | succ n ih =>
    intro g hv
    obtain ⟨hout, hidx, hitems⟩ := deckGen_next_sim σ hσ g hv
    obtain ⟨hrout, hridx, hritems⟩ := ih (DeckGen.next σ g).2 (deckGen_next_valid σ hσ g hv)
    simp only [DeckGen.run, DeckIdx.run]
    refine ⟨?_, ?_, ?_⟩
    · rw [hout, hrout, hidx, hitems]
      simp
    · rw [hridx, hidx]
    · rw [hritems, hitems]

/-- Helper: dropping `p` whole blocks (all of length `c`) from a flatten
drops `p` blocks. -/
theorem flatten_drop_const {γ : Type} (c : Nat) :
    ∀ (p : Nat) (L : List (List γ)), (∀ x ∈ L, x.length = c) →
      List.drop (p * c) L.flatten = (List.drop p L).flatten := by
  intro p
  induction p with
  | zero =>
    intro L h
    simp
  | succ p ih =>
    intro L h
    cases L with
    | nil => simp
    | cons q L =>
      have hq : q.length = c := h q (List.mem_cons_self q L)
      have hmul : (p + 1) * c = q.length + p * c := by rw [hq]; ring
      simp only [List.flatten_cons, List.drop_succ_cons]
      rw [hmul, List.drop_append]
      exact ih L (fun x hx => h x (List.mem_cons_of_mem q hx))

/-- Helper: counting a `some` in a `map some` stream is counting the
value. -/
theorem count_map_some_eq (l : List Nat) (i : Nat) :
    List.count (some i) (l.map some) = List.count i l := by
  induction l with
  | nil => rfl
  | cons a l ih => simp [List.count_cons, ih]

/-- Helper: the draw stream after `p` full passes starts with a complete
shuffled pass (a permutation of the deck), then the remaining stream. -/
theorem deck_window_decomp (σ : List Nat → List Nat) (hσ : ∀ l, List.Perm (σ l) l)
    (d : List Nat) (k p : Nat) (hp : p < k) :
    ∃ pass rest, pass.Perm d ∧ pass.length = d.length ∧
      List.drop (p * d.length) ((deckPasses σ k d).flatten.map some) =
        List.map some pass ++ rest := by
  have heach : ∀ x ∈ deckPasses σ k d, x.length = d.length :=
    fun x hx => (deckPasses_perm σ hσ k d x hx).length_eq
  have hpl : p < (deckPasses σ k d).length := by
    rw [deckPasses_length]
    exact hp
  refine ⟨(deckPasses σ k d).get ⟨p, hpl⟩, ((deckPasses σ k d).drop (p + 1)).flatten.map some,
    deckPasses_perm σ hσ k d _ (List.get_mem _ _ _),
    (deckPasses_perm σ hσ k d _ (List.get_mem _ _ _)).length_eq, ?_⟩
  rw [← List.map_drop, flatten_drop_const d.length p (deckPasses σ k d) heach,
    List.drop_eq_get_cons hpl, List.flatten_cons, List.map_append]

/-- Helper: the item-level deck generator is valid from its fresh state:
every deck entry indexes into the weighted set. -/
theorem randomDeck_valid {α : Type} (w : Weighted α) :
    ∀ d ∈ (Weighted.RandomDeck w).deck, d < (Weighted.RandomDeck w).items.length := by
  intro d hd
  have := makeDeckFrom_mem w 0 d hd
  show d < List.length w
  omega

/-- C1: for a weighted set with positive weights and any
permutation-producing shuffle, `k` consecutive full deck passes (k·total
draws from a fresh `RandomDeck` generator) draw item index `i` exactly
`k · weight_i` times (the item outputs are exactly these index draws
looked up in the set), and within each single pass no prefix contains
index `i` more than `weight_i` times. -/
theorem randomDeck_pass_counts {α : Type} (w : Weighted α) (σ : List Nat → List Nat)
    (hσ : ∀ l, List.Perm (σ l) l) (hw : ∀ x ∈ w, 0 < x.Weight)
    (k : Nat) (hk : 1 ≤ k) (i : Nat) (hi : i < w.length) :
    (DeckGen.run σ (k * (Weighted.total w).toNat) (Weighted.RandomDeck w)).1 =
      ((DeckIdx.run σ (k * (Weighted.total w).toNat) (DeckGen.idx (Weighted.RandomDeck w))).1.map
        fun o => o.bind fun di => (List.get? w di).map ItemWeight.Item) ∧
    List.count (some i)
        (DeckIdx.run σ (k * (Weighted.total w).toNat) (DeckGen.idx (Weighted.RandomDeck w))).1 =
      k * (w.get ⟨i, hi⟩).Weight.toNat ∧
    ∀ p n, p < k → n ≤ (Weighted.total w).toNat →
      List.count (some i)
          (List.take n (List.drop (p * (Weighted.total w).toNat)
            (DeckIdx.run σ (k * (Weighted.total w).toNat)
              (DeckGen.idx (Weighted.RandomDeck w))).1)) ≤
        (w.get ⟨i, hi⟩).Weight.toNat := by
  have hw0 : ∀ x ∈ w, 0 ≤ x.Weight := fun x hx => le_of_lt (hw x hx)
  have hT : (Weighted.makeDeck w).length = (Weighted.total w).toNat := makeDeck_length w hw0
  have hidx : DeckGen.idx (Weighted.RandomDeck w) =
      { deck := Weighted.makeDeck w, index := (Weighted.makeDeck w).length } := rfl
  have hrun : (DeckIdx.run σ (k * (Weighted.total w).toNat)
        (DeckGen.idx (Weighted.RandomDeck w))).1 =
      (deckPasses σ k (Weighted.makeDeck w)).flatten.map some := by
    rw [hidx, ← hT, deckIdx_k_passes σ hσ k (Weighted.makeDeck w)]
  refine ⟨?_, ?_, ?_⟩
  · exact (deckGen_run_sim σ hσ (k * (Weighted.total w).toNat)
      (Weighted.RandomDeck w) (randomDeck_valid w)).1
  · rw [hrun]
    rw [count_map_some_eq]
    rw [count_flatten_const i (deckPasses σ k (Weighted.makeDeck w))
      (List.count i (Weighted.makeDeck w))
      (fun p hp => (deckPasses_perm σ hσ k (Weighted.makeDeck w) p hp).count_eq i)]
    rw [deckPasses_length, count_makeDeck w i hi]
  · intro p n hp hn
    rw [hrun, ← hT]
    obtain ⟨pass, rest, hperm, hplen, hdecomp⟩ :=
      deck_window_decomp σ hσ (Weighted.makeDeck w) k p hp
    rw [hdecomp]
    rw [List.take_append_of_le_length (by rw [List.length_map]; omega)]
    rw [← List.map_take]
    rw [count_map_some_eq]
    calc List.count i (List.take n pass) ≤ List.count i pass :=
          (List.take_sublist n pass).count_le i
      _ = List.count i (Weighted.makeDeck w) := hperm.count_eq i
      _ = (w.get ⟨i, hi⟩).Weight.toNat := count_makeDeck w i hi

/-- Witness for C1: items 5 (weight 1) and 7 (weight 2), identity shuffle,
two passes (6 draws): index 1 is drawn 4 = 2·2 times and no in-pass prefix
exceeds its weight. -/
theorem randomDeck_pass_counts_witness :
    ((DeckGen.run id 6 (Weighted.RandomDeck [ ItemWeight.mk 5 1, ItemWeight.mk 7 2 ])).1 =
      ((DeckIdx.run id 6
          (DeckGen.idx (Weighted.RandomDeck [ ItemWeight.mk 5 1, ItemWeight.mk 7 2 ]))).1.map
        fun o => o.bind fun di =>
          (List.get? [ ItemWeight.mk 5 1, ItemWeight.mk 7 2 ] di).map ItemWeight.Item) ∧
    List.count (some 1)
        (DeckIdx.run id 6
          (DeckGen.idx (Weighted.RandomDeck [ ItemWeight.mk 5 1, ItemWeight.mk 7 2 ]))).1 = 4 ∧
    ∀ p n, p < 2 → n ≤ 3 →
      List.count (some 1)
          (List.take n (List.drop (p * 3)
            (DeckIdx.run id 6
              (DeckGen.idx (Weighted.RandomDeck [ ItemWeight.mk 5 1, ItemWeight.mk 7 2 ]))).1)) ≤
        2) :=
  randomDeck_pass_counts [ ItemWeight.mk 5 1, ItemWeight.mk 7 2 ] id
    (fun l => List.Perm.refl l) (by decide) 2 (by decide) 1 (by decide)

/-- C4: counterexample.  With items 0 and 1 of weight 1 (total = 2) and a
reverse shuffle (a legitimate permutation), the four draws are
1, 0, 0, 1: the window of `total = 2` consecutive draws starting at draw 1
contains item 0 twice, not once — the deck guarantee does not hold for
windows that are not aligned to pass boundaries. -/
theorem randomDeck_unaligned_window_counterexample :
    (∀ l : List Nat, List.Perm (List.reverse l) l) ∧
    Weighted.total [ ItemWeight.mk 0 1, ItemWeight.mk 1 1 ] = 2 ∧
    (DeckGen.run List.reverse 4
        (Weighted.RandomDeck [ ItemWeight.mk 0 1, ItemWeight.mk 1 1 ])).1 =
      [ some 1, some 0, some 0, some 1 ] ∧
    List.count (some 0)
        (List.take 2 (List.drop 1
          (DeckGen.run List.reverse 4
            (Weighted.RandomDeck [ ItemWeight.mk 0 1, ItemWeight.mk 1 1 ])).1)) = 2 :=
  ⟨fun l => List.reverse_perm l, by decide, by decide, by decide⟩

/-- C4 (amended): the exact-frequency guarantee holds for every window of
`total` consecutive draws that is aligned to a pass boundary: within pass
`p` of `k`, item index `i` is drawn exactly `weight_i` times (and the item
outputs are exactly the index draws looked up in the set). -/
theorem randomDeck_aligned_window_counts {α : Type} (w : Weighted α) (σ : List Nat → List Nat)
    (hσ : ∀ l, List.Perm (σ l) l) (hw : ∀ x ∈ w, 0 < x.Weight)
    (k p : Nat) (hp : p < k) (i : Nat) (hi : i < w.length) :
    (DeckGen.run σ (k * (Weighted.total w).toNat) (Weighted.RandomDeck w)).1 =
      ((DeckIdx.run σ (k * (Weighted.total w).toNat) (DeckGen.idx (Weighted.RandomDeck w))).1.map
        fun o => o.bind fun di => (List.get? w di).map ItemWeight.Item) ∧
    List.count (some i)
        (List.take (Weighted.total w).toNat
          (List.drop (p * (Weighted.total w).toNat)
            (DeckIdx.run σ (k * (Weighted.total w).toNat)
              (DeckGen.idx (Weighted.RandomDeck w))).1)) =
      (w.get ⟨i, hi⟩).Weight.toNat := by
  have hw0 : ∀ x ∈ w, 0 ≤ x.Weight := fun x hx => le_of_lt (hw x hx)
  have hT : (Weighted.makeDeck w).length = (Weighted.total w).toNat := makeDeck_length w hw0
  have hidx : DeckGen.idx (Weighted.RandomDeck w) =
      { deck := Weighted.makeDeck w, index := (Weighted.makeDeck w).length } := rfl
  have hrun : (DeckIdx.run σ (k * (Weighted.total w).toNat)
        (DeckGen.idx (Weighted.RandomDeck w))).1 =
      (deckPasses σ k (Weighted.makeDeck w)).flatten.map some := by
    rw [hidx, ← hT, deckIdx_k_passes σ hσ k (Weighted.makeDeck w)]
  refine ⟨?_, ?_⟩
  · exact (deckGen_run_sim σ hσ (k * (Weighted.total w).toNat)
      (Weighted.RandomDeck w) (randomDeck_valid w)).1
  · rw [hrun, ← hT]
    obtain ⟨pass, rest, hperm, hplen, hdecomp⟩ :=
      deck_window_decomp σ hσ (Weighted.makeDeck w) k p hp
    rw [hdecomp]
    rw [show (Weighted.makeDeck w).length = (List.map some pass).length by
      rw [List.length_map, hplen]]
    rw [List.take_left]
    rw [count_map_some_eq]
    rw [hperm.count_eq i, count_makeDeck w i hi]

/-- Witness for the amended C4: items 5 (weight 1) and 7 (weight 2),
identity shuffle, the second of two passes (draws 3..5) draws index 0
exactly once. -/
theorem randomDeck_aligned_window_counts_witness :
    ((DeckGen.run id 6 (Weighted.RandomDeck [ ItemWeight.mk 5 1, ItemWeight.mk 7 2 ])).1 =
      ((DeckIdx.run id 6
          (DeckGen.idx (Weighted.RandomDeck [ ItemWeight.mk 5 1, ItemWeight.mk 7 2 ]))).1.map
        fun o => o.bind fun di =>
          (List.get? [ ItemWeight.mk 5 1, ItemWeight.mk 7 2 ] di).map ItemWeight.Item) ∧
    List.count (some 0)
        (List.take 3 (List.drop (1 * 3)
          (DeckIdx.run id 6
            (DeckGen.idx (Weighted.RandomDeck [ ItemWeight.mk 5 1, ItemWeight.mk 7 2 ]))).1)) =
      1) :=
  randomDeck_aligned_window_counts [ ItemWeight.mk 5 1, ItemWeight.mk 7 2 ] id
    (fun l => List.Perm.refl l) (by decide) 2 1 (by decide) 0 (by decide)

/-- Helper: the indenting writer passes newline-free text through
verbatim. -/
theorem indentChars_no_newline : ∀ (s : List Char), '\n' ∉ s → indentChars s = s := by
  intro s
  induction s with
  | nil =>
    intro _
    rfl
  | cons c cs ih =>
    intro h
    have hc : ¬ (c = '\n') := fun he => h (he ▸ List.mem_cons_self c cs)
    have hcs : '\n' ∉ cs := fun hm => h (List.mem_cons_of_mem c hm)
    simp [indentChars, hc, ih hcs]

/-- Helper: newline-free log texts are unchanged by indentation. -/
theorem map_indent_no_newline :
    ∀ (L : List (List Char)), (∀ out ∈ L, '\n' ∉ out) → L.map indentChars = L := by
  intro L
  induction L with
  | nil =>
    intro _
    rfl
  | cons o L ih =>
    intro h
    simp only [List.map_cons]
    rw [indentChars_no_newline o (h o (List.mem_cons_self o L)),
      ih (fun x hx => h x (List.mem_cons_of_mem o hx))]

/-- Helper: a run of `Logf` calls appends the indented texts to the
history. -/
theorem foldl_logf_history :
    ∀ (outs : List (List Char)) (l : Logger),
      (List.foldl Logger.Logf l outs).history = l.history ++ (outs.map indentChars).flatten := by
  intro outs
  induction outs with
  | nil =>
    intro l
    simp
  | cons o outs ih =>
    intro l
    simp only [List.foldl_cons, List.map_cons, List.flatten_cons]
    rw [ih]
    simp [Logger.Logf, Logger.writeIndent, List.append_assoc]

/-- Helper: a run of `Logf` calls sets the logged flag exactly when it is
non-empty. -/
theorem foldl_logf_logged :
    ∀ (outs : List (List Char)) (l : Logger),
      (List.foldl Logger.Logf l outs).logged = (l.logged || !outs.isEmpty) := by
  intro outs
  induction outs with
  | nil =>
    intro l
    simp
  | cons o outs ih =>
    intro l
    simp only [List.foldl_cons]
    rw [ih]
    simp [Logger.Logf, Logger.writeIndent]

/-- Helper: `Logf` calls do not touch the operation number. -/
theorem foldl_logf_opNumber :
    ∀ (outs : List (List Char)) (l : Logger),
      (List.foldl Logger.Logf l outs).opNumber = l.opNumber := by
  intro outs
  induction outs with
  | nil =>
    intro l
    rfl
  | cons o outs ih =>
    intro l
    simp only [List.foldl_cons]
    rw [ih]
    rfl

/-- Helper: `Step` appends exactly the operation's chunk to the history. -/
theorem Step_history {S : Type} (op : MOp S) (l : Logger) (s : S) :
    (Step op (l, s)).1.history = l.history ++ opChunk l.opNumber op s := by
  by_cases houts : (op.run s).1.isEmpty
  · simp [Step, opChunk, Logger.Write, foldl_logf_history, foldl_logf_logged, houts,
      List.append_assoc]
  · simp [Step, opChunk, Logger.Write, foldl_logf_history, foldl_logf_logged, houts,
      List.append_assoc]

/-- Helper: `Step` advances the operation number by one. -/
theorem Step_opNumber {S : Type} (op : MOp S) (l : Logger) (s : S) :
    (Step op (l, s)).1.opNumber = l.opNumber + 1 := by
  by_cases houts : (op.run s).1.isEmpty
  · simp [Step, Logger.Write, foldl_logf_opNumber, foldl_logf_logged, houts, apply_ite]
  · simp [Step, Logger.Write, foldl_logf_opNumber, foldl_logf_logged, houts, apply_ite]

/-- Helper: `Step` threads the operation's state update. -/
theorem Step_state {S : Type} (op : MOp S) (t : Logger × S) :
    (Step op t).2 = (op.run t.2).2 := rfl

/-- Helper: the tandem protocol appends exactly the operation's chunk. -/
theorem tandemStep_history {S : Type} (i : Nat) (op : MOp S) (l : Logger) (s : S) :
    (tandemStep i op (l, s)).1.history = l.history ++ opChunk i op s := by
  by_cases houts : (op.run s).1.isEmpty
  · simp [tandemStep, opChunk, Logger.Write, foldl_logf_history, foldl_logf_logged, houts,
      List.append_assoc]
  · simp [tandemStep, opChunk, Logger.Write, foldl_logf_history, foldl_logf_logged, houts,
      List.append_assoc]

/-- Helper: the tandem protocol threads the operation's state update. -/
theorem tandemStep_state {S : Type} (i : Nat) (op : MOp S) (t : Logger × S) :
    (tandemStep i op t).2 = (op.run t.2).2 := rfl

/-- Helper: with newline-free outputs, an operation's chunk is exactly the
predicted single line. -/
theorem opChunk_plain {S : Type} (i : Nat) (op : MOp S) (s : S)
    (hout : ∀ out ∈ (op.run s).1, '\n' ∉ out) :
    opChunk i op s = plainLine i op s := by
  unfold opChunk plainLine
  rw [map_indent_no_newline (op.run s).1 hout]
  by_cases houts : (op.run s).1.isEmpty
  · have : (op.run s).1 = [] := List.isEmpty_iff.mp houts
    rw [this]
    simp
  · simp [houts]

/-- Helper: with newline-free outputs, the transcript is the predicted
one-line-per-operation transcript. -/
theorem opLines_plain {S : Type} :
    ∀ (ops : List (MOp S)) (i : Nat) (s : S),
      (∀ op ∈ ops, ∀ s', ∀ out ∈ (op.run s').1, '\n' ∉ out) →
      opLines i s ops = plainLines i s ops := by
  intro ops
  induction ops with
  | nil =>
    intro i s _
    rfl
  | cons op ops ih =>
    intro i s h
    simp only [opLines, plainLines]
    rw [opChunk_plain i op s (h op (List.mem_cons_self op ops) s),
      ih (i + 1) ((op.run s).2) (fun o ho s' => h o (List.mem_cons_of_mem op ho) s')]

/-- Helper: folding `Step` over the operations appends the transcript and
advances the numbering and state accordingly. -/
theorem foldl_Step_spec {S : Type} :
    ∀ (ops : List (MOp S)) (l : Logger) (s : S),
      (List.foldl (fun t op => Step op t) (l, s) ops).1.history =
          l.history ++ opLines l.opNumber s ops ∧
      (List.foldl (fun t op => Step op t) (l, s) ops).1.opNumber = l.opNumber + ops.length ∧
      (List.foldl (fun t op => Step op t) (l, s) ops).2 = stateAfter s ops := by
  intro ops
  induction ops with
  | nil =>
    intro l s
    simp [opLines, stateAfter]
  | cons op ops ih =>
    intro l s
    simp only [List.foldl_cons]
    have hstep : Step op (l, s) = ((Step op (l, s)).1, (op.run s).2) := by
      rw [← Step_state op (l, s)]
    rw [hstep]
    obtain ⟨h1, h2, h3⟩ := ih (Step op (l, s)).1 ((op.run s).2)
    refine ⟨?_, ?_, ?_⟩
    · rw [h1, Step_history, Step_opNumber]
      simp [opLines, List.append_assoc]
    · rw [h2, Step_opNumber]
      simp [List.length_cons]
      omega
    · rw [h3]
      rfl

/-- C5: over operations whose descriptors and logged outputs contain no
newline, `Run` produces exactly one `op <N%6>: <descriptor> = <output-or->`
line per operation followed by the final `done` line; with no operations
the transcript is exactly the `done` line. -/
theorem run_transcript {S : Type} (initial : S) (ops : List (MOp S))
    (hdesc : ∀ op ∈ ops, '\n' ∉ op.desc)
    (hout : ∀ op ∈ ops, ∀ s, ∀ out ∈ (op.run s).1, '\n' ∉ out) :
    (Run initial ops).1.history = plainLines 0 initial ops ++ String.data "done\n" := by
  unfold Run
  dsimp only
  rw [show (List.foldl (fun t op => Step op t) (Logger.init, initial) ops) =
      ((List.foldl (fun t op => Step op t) (Logger.init, initial) ops).1,
        (List.foldl (fun t op => Step op t) (Logger.init, initial) ops).2) from rfl]
  simp only [Logger.Write]
  rw [(foldl_Step_spec ops Logger.init initial).1]
  rw [opLines_plain ops Logger.init.opNumber initial hout]
  simp [Logger.init]

/-- Witness for C5: two operations over a counter state, one logging `ok`,
one logging nothing (so it gets the `-` placeholder). -/
theorem run_transcript_witness :
    (Run (0 : Nat)
        [ MOp.mk (String.data "put") (fun s => ([ String.data "ok" ], s + 1)),
          MOp.mk (String.data "get") (fun s => ([], s)) ]).1.history =
      plainLines 0 (0 : Nat)
          [ MOp.mk (String.data "put") (fun s => ([ String.data "ok" ], s + 1)),
            MOp.mk (String.data "get") (fun s => ([], s)) ] ++
        String.data "done\n" := by
  apply run_transcript
  · intro op hop
    simp only [List.mem_cons, List.not_mem_nil, or_false] at hop
    rcases hop with h | h <;> subst h <;> decide
  · intro op hop
    simp only [List.mem_cons, List.not_mem_nil, or_false] at hop
    rcases hop with h | h <;> subst h <;> intro s out hout <;>
      simp only [] at hout
    · have : out = String.data "ok" := by simpa using hout
      subst this
      decide
    · simp at hout

/-- Helper: the tandem inner loop steps every remaining timeline. -/
theorem tandemInner_timelines {S : Type} (i : Nat) (op : MOp S) (seg0 : List Char) :
    ∀ (ts : List (Logger × S)) (j : Nat),
      (tandemInner i op seg0 j ts).1 = ts.map (tandemStep i op) := by
  intro ts
  induction ts with
  | nil =>
    intro j
    rfl
  | cons t ts ih =>
    intro j
    simp only [tandemInner, List.map_cons]
    rw [ih (j + 1)]

/-- Helper: in the tandem inner loop, a timeline whose chunk differs from
the reference segment is reported. -/
theorem tandemInner_mem {S : Type} (i : Nat) (op : MOp S) (seg0 : List Char) :
    ∀ (ts : List (Logger × S)) (j m : Nat) (hm : m < ts.length),
      opChunk i op ((ts.get ⟨m, hm⟩).2) ≠ seg0 →
      (i, j + m) ∈ (tandemInner i op seg0 j ts).2 := by
  intro ts
  induction ts with
  | nil =>
    intro j m hm
    exact absurd hm (by simp)
  | cons t ts ih =>
    intro j m hm hne
    cases m with
    | zero =>
      have hseg : List.drop t.1.history.length (tandemStep i op t).1.history =
          opChunk i op t.2 := by
        obtain ⟨l, s⟩ := t
        rw [tandemStep_history]
        exact List.drop_left _ _
      simp only [tandemInner]
      rw [hseg]
      rw [if_neg (show ¬ (opChunk i op t.2 = seg0) from fun h => hne h)]
      simp
    | succ m =>
      have hm' : m < ts.length := by simpa using hm
      have key := ih (j + 1) m hm' hne
      simp only [tandemInner]
      apply List.mem_append_right
      rw [show j + (m + 1) = j + 1 + m by omega]
      exact key

/-- Helper: one tandem operation steps every timeline. -/
theorem tandemOp_timelines {S : Type} (i : Nat) (op : MOp S) :
    ∀ (tls : List (Logger × S)), (tandemOp i op tls).1 = tls.map (tandemStep i op) := by
  intro tls
  cases tls with
  | nil => rfl
  | cons t0 ts =>
    simp only [tandemOp, List.map_cons]
    rw [tandemInner_timelines]

/-- Helper: in one tandem operation, a timeline `j ≥ 1` whose chunk
differs from timeline 0's chunk is reported as `(i, j)`. -/
theorem tandemOp_mem {S : Type} (i : Nat) (op : MOp S) (tls : List (Logger × S))
    (j : Nat) (hj1 : 1 ≤ j) (hj : j < tls.length) (h0 : 0 < tls.length)
    (hne : opChunk i op ((tls.get ⟨j, hj⟩).2) ≠ opChunk i op ((tls.get ⟨0, h0⟩).2)) :
    (i, j) ∈ (tandemOp i op tls).2 := by
  cases tls with
  | nil => simp at hj
  | cons t0 ts =>
    have hseg0 : List.drop t0.1.history.length (tandemStep i op t0).1.history =
        opChunk i op t0.2 := by
      obtain ⟨l, s⟩ := t0
      rw [tandemStep_history]
      exact List.drop_left _ _
    simp only [tandemOp]
    rw [hseg0]
    obtain ⟨j', rfl⟩ : ∃ j', j = j' + 1 := ⟨j - 1, by omega⟩
    have hj' : j' < ts.length := by
      simp only [List.length_cons] at hj
      omega
    have key := tandemInner_mem i op (opChunk i op t0.2) ts 1 j' hj' (by exact hne)
    rw [show j' + 1 = 1 + j' by omega]
    exact key

/-- Helper: the tandem operation loop advances every timeline through all
operations, independently of the comparison outcomes. -/
theorem tandemRunFrom_timelines {S : Type} :
    ∀ (ops : List (MOp S)) (i : Nat) (tls : List (Logger × S)),
      (tandemRunFrom i tls ops).1 = tls.map (fun t => soloRunFrom i t ops) := by
  intro ops
  induction ops with
  | nil =>
    intro i tls
    simp [tandemRunFrom, soloRunFrom]
  | cons op ops ih =>
    intro i tls
    simp only [tandemRunFrom]
    rw [tandemOp_timelines, ih (i + 1), List.map_map]
    rfl

/-- Helper: a solo timeline's final state is the fold of the operations'
state updates. -/
theorem soloRunFrom_state {S : Type} :
    ∀ (ops : List (MOp S)) (i : Nat) (t : Logger × S),
      (soloRunFrom i t ops).2 = stateAfter t.2 ops := by
  intro ops
  induction ops with
  | nil =>
    intro i t
    rfl
  | cons op ops ih =>
    intro i t
    simp only [soloRunFrom, stateAfter]
    rw [ih, tandemStep_state]

/-- Helper: a solo timeline's final history is its initial history plus
one chunk per operation. -/
theorem soloRunFrom_history {S : Type} :
    ∀ (ops : List (MOp S)) (i : Nat) (t : Logger × S),
      (soloRunFrom i t ops).1.history = t.1.history ++ opLines i t.2 ops := by
  intro ops
  induction ops with
  | nil =>
    intro i t
    simp [soloRunFrom, opLines]
  | cons op ops ih =>
    intro i t
    simp only [soloRunFrom, opLines]
    rw [ih]
    obtain ⟨l, s⟩ := t
    rw [tandemStep_history, tandemStep_state]
    simp [List.append_assoc]

/-- Helper: in the tandem operation loop starting at number `i`, a
divergence of timeline `j` from timeline 0 at relative operation `m` is
reported as `(i + m, j)`. -/
theorem tandemRunFrom_mem {S : Type} :
    ∀ (ops : List (MOp S)) (m i : Nat) (tls : List (Logger × S)) (j : Nat)
      (hm : m < ops.length) (hj1 : 1 ≤ j) (hj : j < tls.length) (h0 : 0 < tls.length),
      opChunk (i + m) (ops.get ⟨m, hm⟩) (stateAfter ((tls.get ⟨j, hj⟩).2) (ops.take m)) ≠
        opChunk (i + m) (ops.get ⟨m, hm⟩) (stateAfter ((tls.get ⟨0, h0⟩).2) (ops.take m)) →
      (i + m, j) ∈ (tandemRunFrom i tls ops).2 := by
  intro ops
  induction ops with
  | nil =>
    intro m i tls j hm
    simp at hm
  | cons op ops ih =>
    intro m i tls j hm hj1 hj h0 hne
    cases m with
    | zero =>
      simp only [tandemRunFrom]
      apply List.mem_append_left
      apply tandemOp_mem i op tls j hj1 hj h0
      simpa [stateAfter] using hne
    | succ m =>
      simp only [tandemRunFrom]
      apply List.mem_append_right
      rw [tandemOp_timelines]
      have hj'' : j < (List.map (tandemStep i op) tls).length := by
        rw [List.length_map]
        exact hj
      have h0' : 0 < (List.map (tandemStep i op) tls).length := by
        rw [List.length_map]
        exact h0
      have hgetj : ((List.map (tandemStep i op) tls).get ⟨j, hj''⟩).2 =
          (op.run ((tls.get ⟨j, hj⟩).2)).2 := by
        rw [List.get_map, tandemStep_state]
      have hget0 : ((List.map (tandemStep i op) tls).get ⟨0, h0'⟩).2 =
          (op.run ((tls.get ⟨0, h0⟩).2)).2 := by
        rw [List.get_map, tandemStep_state]
      have hm' : m < ops.length := by simpa using hm
      have key := ih m (i + 1) (List.map (tandemStep i op) tls) j hm' hj1 hj'' h0' ?_
      · rw [show i + (m + 1) = i + 1 + m by omega]
        exact key
      · rw [hgetj, hget0]
        simpa [stateAfter, show i + 1 + m = i + (m + 1) by omega] using hne

/-- C6: in `RunInTandem`, whenever the log bytes operation `i` produces on
timeline `j > 0` differ from those it produces on timeline 0, the
divergence `(i, j)` is reported non-fatally, and every timeline still
executes every operation (the full per-timeline transcripts and states are
those of an uninterrupted run). -/
theorem runInTandem_divergence_reported {S : Type} (initial : List S) (ops : List (MOp S))
    (i j : Nat) (hi : i < ops.length) (hj1 : 1 ≤ j) (hj : j < initial.length)
    (h0 : 0 < initial.length)
    (hdiff : opChunk i (ops.get ⟨i, hi⟩) (stateAfter (initial.get ⟨j, hj⟩) (ops.take i)) ≠
      opChunk i (ops.get ⟨i, hi⟩) (stateAfter (initial.get ⟨0, h0⟩) (ops.take i))) :
    (i, j) ∈ (RunInTandem initial ops).2 ∧
    (RunInTandem initial ops).1.length = initial.length ∧
    ∀ j' (hj' : j' < initial.length) (hj'' : j' < (RunInTandem initial ops).1.length),
      ((RunInTandem initial ops).1.get ⟨j', hj''⟩).1.history =
        opLines 0 (initial.get ⟨j', hj'⟩) ops := by
  have hlenmap : (initial.map fun s => (Logger.init, s)).length = initial.length :=
    List.length_map initial _
  refine ⟨?_, ?_, ?_⟩
  · have hj2 : j < (initial.map fun s => (Logger.init, s)).length := by omega
    have h02 : 0 < (initial.map fun s => (Logger.init, s)).length := by omega
    have key := tandemRunFrom_mem ops i 0 (initial.map fun s => (Logger.init, s)) j hi hj1
      hj2 h02 ?_
    · rw [show (0 + i, j) = (i, j) by simp] at key
      exact key
    · have hgj : ((initial.map fun s => (Logger.init, s)).get ⟨j, hj2⟩).2 =
          initial.get ⟨j, hj⟩ := by
        rw [List.get_map]
    
      have hg0 : ((initial.map fun s => (Logger.init, s)).get ⟨0, h02⟩).2 =
          initial.get ⟨0, h0⟩ := by
        rw [List.get_map]
    
      rw [hgj, hg0]
      simpa using hdiff
  · unfold RunInTandem
    rw [tandemRunFrom_timelines, List.length_map, List.length_map]
  · intro j' hj' hj''
    unfold RunInTandem
    have hj2 : j' < ((initial.map fun s => (Logger.init, s)).map
        fun t => soloRunFrom 0 t ops).length := by
      rw [List.length_map, List.length_map]
      exact hj'
    have : (tandemRunFrom 0 (initial.map fun s => (Logger.init, s)) ops).1.get
          ⟨j', by rw [tandemRunFrom_timelines]; exact hj2⟩ =
        soloRunFrom 0 ((initial.map fun s => (Logger.init, s)).get
          ⟨j', by rw [List.length_map]; exact hj'⟩) ops := by
      rw [List.get_of_eq (tandemRunFrom_timelines ops 0 _), List.get_map]
    rw [List.get_of_eq (tandemRunFrom_timelines ops 0 _), List.get_map]
    rw [soloRunFrom_history]
    rw [List.get_map]
    simp [Logger.init]

/-- Witness for C6: two counter timelines (0 and 1) and one operation that
logs the counter; the logs differ at operation 0, `(0, 1)` is reported,
and both timelines' full transcripts are produced. -/
theorem runInTandem_divergence_reported_witness :
    ((0, 1) ∈ (RunInTandem [ 0, 1 ]
        [ MOp.mk (String.data "show") (fun s : Nat => ([ String.data (Nat.repr s) ], s)) ]).2 ∧
    (RunInTandem [ 0, 1 ]
        [ MOp.mk (String.data "show")
            (fun s : Nat => ([ String.data (Nat.repr s) ], s)) ]).1.length = 2 ∧
    ∀ j' (hj' : j' < ([ 0, 1 ] : List Nat).length)
        (hj'' : j' < (RunInTandem [ 0, 1 ]
          [ MOp.mk (String.data "show")
              (fun s : Nat => ([ String.data (Nat.repr s) ], s)) ]).1.length),
      ((RunInTandem [ 0, 1 ]
          [ MOp.mk (String.data "show")
              (fun s : Nat => ([ String.data (Nat.repr s) ], s)) ]).1.get
        ⟨j', hj''⟩).1.history =
        opLines 0 (([ 0, 1 ] : List Nat).get ⟨j', hj'⟩)
          [ MOp.mk (String.data "show") (fun s : Nat => ([ String.data (Nat.repr s) ], s)) ]) :=
  runInTandem_divergence_reported [ 0, 1 ]
    [ MOp.mk (String.data "show") (fun s : Nat => ([ String.data (Nat.repr s) ], s)) ]
    0 1 (by decide) (by decide) (by decide) (by decide) (by decide)
